import Mathlib

set_option maxHeartbeats 1600000

/-!
Shallow embedding of the Sia host database. The `New` constructor is embedded
from `modules/hostdb/hostdb.go`. The weighted selection tree, host entry store
and ledger synchronizer of the host database are modelled from the design
specification, since only their design (not their source) is available here.
-/

/-- Network identity of a host (the unique key of a host entry). -/
abbrev Identity := Nat

/-- Identifier (hash) of a ledger block. -/
abbrev BlockID := Nat

/-- Network address, used as the key of the host maps. -/
abbrev Address := Nat

/-- Modelled from the spec: a node of the weighted selection tree. A node
carries `weight` (the score of the entry at this leaf, `0` for internal
nodes), `subtreeWeight` (sum of `weight` over this node and both children),
two exclusively-owned children (`nil` if absent), and `entry` (the identity
this leaf represents, `none` for internal nodes). -/
inductive HostTree where
  | nil : HostTree
  | node (weight : Nat) (subtreeWeight : Nat) (entry : Option Identity) (left right : HostTree) : HostTree
deriving DecidableEq

/-- The cached `subtreeWeight` of a node; an absent child contributes `0`. -/
def HostTree.subtreeWeight : HostTree → Nat
  | .nil => 0
  | .node _ sw _ _ _ => sw

/-- The local `weight` of a node; an absent child contributes `0`. -/
def HostTree.weight : HostTree → Nat
  | .nil => 0
  | .node w _ _ _ _ => w

/-- Whether a tree is the absent (`nil`) tree. -/
def HostTree.isNil : HostTree → Bool
  | .nil => true
  | .node _ _ _ _ _ => false

/-- Whether the identity is present at some leaf of the tree. -/
def HostTree.contains : HostTree → Identity → Bool
  | .nil, _ => false
  | .node _ _ (some eid) l r, id => eid == id || l.contains id || r.contains id
  | .node _ _ none l r, id => l.contains id || r.contains id

/-- Modelled from the spec: placement policy of `insert`. Descend from the
root choosing the child whose current `subtreeWeight` is smaller (ties broken
to the left); an empty slot receives the new leaf; an existing leaf is
promoted to an internal node bearing an empty-weight placeholder with both
the old and the new leaf pushed down; `subtreeWeight` is updated along the
path to the root. -/
def HostTree.insertAux : HostTree → Identity → Nat → HostTree
  | .nil, id, w => .node w w (some id) .nil .nil
  | .node wt sw (some eid) l r, id, w =>
      HostTree.node 0 (sw + w) none (HostTree.node wt sw (some eid) l r)
        (HostTree.node w w (some id) HostTree.nil HostTree.nil)
  | .node wt sw none l r, id, w =>
      if l.subtreeWeight ≤ r.subtreeWeight then
        HostTree.node wt (sw + w) none (l.insertAux id w) r
      else
        HostTree.node wt (sw + w) none l (r.insertAux id w)

/-- Modelled from the spec: removal of a leaf. The leaf is removed, a parent
left with a single child is collapsed (the remaining child is merged upward),
and `subtreeWeight` is updated along the path to the root. -/
def HostTree.removeAux : HostTree → Identity → HostTree
  | .nil, _ => .nil
  | .node wt sw (some eid) l r, id =>
      if eid = id then HostTree.nil else HostTree.node wt sw (some eid) l r
  | .node wt _ none l r, id =>
      let ll := l.removeAux id
      let rr := r.removeAux id
      if ll.isNil then rr
      else if rr.isNil then ll
      else HostTree.node wt (wt + ll.subtreeWeight + rr.subtreeWeight) none ll rr

/-- Errors raised by the weighted selection tree operations. -/
inductive TreeError where
  | invalidWeight : TreeError
  | duplicateIdentity : TreeError
  | notFound : TreeError
deriving DecidableEq

/-- Modelled from the spec: `insert(entry, weight)` fails if `weight ≤ 0`
(ineligible entries are never inserted) or if the identity is already
present; on success the new leaf is placed by the descent policy. -/
def HostTree.insert (t : HostTree) (id : Identity) (w : Nat) : Except TreeError HostTree :=
  if w = 0 then .error .invalidWeight
  else if t.contains id then .error .duplicateIdentity
  else .ok (t.insertAux id w)

/-- Modelled from the spec: `remove(identity)` fails with `NotFound` if the
identity is absent, else removes its leaf. -/
def HostTree.remove (t : HostTree) (id : Identity) : Except TreeError HostTree :=
  if t.contains id then .ok (t.removeAux id) else .error .notFound

/-- Modelled from the spec: `reweight(identity, newWeight)` is `remove`
followed by `insert` with the new weight; it fails with `NotFound` if the
identity is absent, and a non-positive new weight removes the entry from the
tree only. -/
def HostTree.reweight (t : HostTree) (id : Identity) (w : Nat) : Except TreeError HostTree :=
  if !t.contains id then .error .notFound
  else if w = 0 then .ok (t.removeAux id)
  else (t.removeAux id).insert id w

/-- Modelled from the spec: one weighted draw. Given a value in
`[0, subtreeWeight(root))`, descend: if the value falls within the left
subtree's weight, recurse left; else if it falls within the local leaf
weight, return this leaf; else subtract and recurse right. -/
def HostTree.selectAt : HostTree → Nat → Option Identity
  | .nil, _ => none
  | .node w _ e l r, v =>
    if v < l.subtreeWeight then l.selectAt v
    else if v < l.subtreeWeight + w then e
    else r.selectAt (v - l.subtreeWeight - w)

/-- Modelled from the spec: the draw loop of `selectRandom`. Each draw picks
an entry with probability proportional to its weight among the remaining
entries (the random source `rand` supplies the raw value of draw `i`), and
the drawn node is temporarily removed before the next draw to avoid
repeats; the loop stops early when the pool is exhausted. -/
def HostTree.drawLoop (rand : Nat → Nat) : Nat → HostTree → Nat → List Identity
  | 0, _, _ => []
  | Nat.succ k, t, i =>
    if t.subtreeWeight = 0 then []
    else
      match t.selectAt (rand i % t.subtreeWeight) with
      | none => []
      | some id => id :: HostTree.drawLoop rand k (t.removeAux id) (i + 1)

/-- Modelled from the spec: `selectRandom(n, exclude)` draws up to `n`
distinct entries without replacement, skipping any identity in `exclude`;
it returns fewer than `n` entries (never an error) if the eligible pool is
exhausted. -/
def HostTree.selectRandom (t : HostTree) (n : Nat) (exclude : List Identity) (rand : Nat → Nat) :
    List Identity :=
  HostTree.drawLoop rand n (exclude.foldl HostTree.removeAux t) 0

/-- Number of live leaves of the tree. -/
def HostTree.size : HostTree → Nat
  | .nil => 0
  | .node _ _ e l r => (if e.isSome then 1 else 0) + l.size + r.size

/-- Total weight carried at leaves labelled `id`. -/
def HostTree.leafWeight : HostTree → Identity → Nat
  | .nil, _ => 0
  | .node w _ (some eid) l r, id =>
      (if eid = id then w else 0) + l.leafWeight id + r.leafWeight id
  | .node _ _ none l r, id => l.leafWeight id + r.leafWeight id

/-- Number of leaves labelled `id`. -/
def HostTree.leafCount : HostTree → Identity → Nat
  | .nil, _ => 0
  | .node _ _ (some eid) l r, id =>
      (if eid = id then 1 else 0) + l.leafCount id + r.leafCount id
  | .node _ _ none l r, id => l.leafCount id + r.leafCount id

/-- Structural shape of well-built trees: a leaf (a node bearing an entry)
has no children, and an internal node (no entry) has two present children. -/
def HostTree.shape : HostTree → Bool
  | .nil => true
  | .node _ _ (some _) l r => l.isNil && r.isNil
  | .node _ _ none l r => !l.isNil && !r.isNil && l.shape && r.shape

/-- Every leaf of the tree carries a positive weight. -/
def HostTree.posW : HostTree → Bool
  | .nil => true
  | .node w _ (some _) l r => w != 0 && l.posW && r.posW
  | .node _ _ none l r => l.posW && r.posW

/-- The `subtreeWeight` bookkeeping invariant: at every node the cached
`subtreeWeight` equals the node's own `weight` plus the `subtreeWeight` of
both children (absent children contributing zero). -/
def HostTree.wf : HostTree → Prop
  | .nil => True
  | .node w sw _ l r => sw = w + l.subtreeWeight + r.subtreeWeight ∧ l.wf ∧ r.wf

/-- One mutating operation of the weighted selection tree. -/
inductive TreeOp where
  | insert (id : Identity) (w : Nat) : TreeOp
  | remove (id : Identity) : TreeOp
  | reweight (id : Identity) (w : Nat) : TreeOp
deriving DecidableEq

/-- Run one tree operation; a failing operation leaves the tree unchanged. -/
def HostTree.applyOp (t : HostTree) : TreeOp → HostTree
  | .insert id w =>
    match t.insert id w with
    | .ok t' => t'
    | .error _ => t
  | .remove id =>
    match t.remove id with
    | .ok t' => t'
    | .error _ => t
  | .reweight id w =>
    match t.reweight id w with
    | .ok t' => t'
    | .error _ => t

/-- A tree state reachable from the empty tree by some sequence of insert,
remove and reweight operations. -/
def HostTree.reachable (t : HostTree) : Prop :=
  ∃ ops : List TreeOp, t = ops.foldl HostTree.applyOp HostTree.nil

/-- A host entry: the database's record of one host's most recent known
terms, provenance heights, derived selection weight and activity status. -/
structure HostEntry where
  identity : Identity
  terms : Nat
  firstSeen : Nat
  lastAnnounced : Nat
  weight : Nat
  active : Bool
deriving DecidableEq

/-- A consensus block as seen by the host database: its identifier. -/
structure Block where
  id : BlockID
deriving DecidableEq

/-- The consensus state interface consumed by `New`: a lookup of the block
at a given height, returning the block and whether it exists. -/
structure ConsensusState where
  blockAtHeight : Nat → Option Block

/-- The construction errors of the host database, from `hostdb.go`. -/
inductive HostDBErr where
  | errNilState : HostDBErr
  | errMissingGenesisBlock : HostDBErr
deriving DecidableEq

/-- The `HostDB` struct of `hostdb.go`: the consensus state reference, the
most recent processed block, the host tree and the two host maps. -/
structure HostDB where
  state : ConsensusState
  recentBlock : BlockID
  hostTree : HostTree
  activeHosts : List (Address × HostTree)
  allHosts : List (Address × HostEntry)

/-- The `New` constructor of `hostdb.go`: a nil state yields `ErrNilState`;
a state with no block at height `0` yields `ErrMissingGenesisBlock`;
otherwise the database starts at the genesis block with empty host maps. -/
def New (s : Option ConsensusState) : Option HostDB × Option HostDBErr :=
  match s with
  | none => (none, some .errNilState)
  | some st =>
    match st.blockAtHeight 0 with
    | none => (none, some .errMissingGenesisBlock)
    | some genesisBlock =>
      (some { state := st, recentBlock := genesisBlock.id, hostTree := HostTree.nil,
              activeHosts := [], allHosts := [] }, none)

/-- The combined structural invariant of the weighted selection tree. -/
def TreeInv (t : HostTree) : Prop := t.shape = true ∧ t.wf ∧ t.posW = true

/-- Modelled from the spec: lookup in the host entry store, an association
of identities to host entries. -/
def lookupEntry : List (Identity × HostEntry) → Identity → Option HostEntry
  | [], _ => none
  | (k, v) :: rest, id => if k = id then some v else lookupEntry rest id

/-- Remove every binding of an identity from the host entry store. -/
def eraseEntry : List (Identity × HostEntry) → Identity → List (Identity × HostEntry)
  | [], _ => []
  | (k, v) :: rest, id =>
    if k = id then eraseEntry rest id else (k, v) :: eraseEntry rest id

/-- Modelled from the spec: write one key of the host entry store. Writing
`some e` is the store's `upsert`; writing `none` is its `remove`. -/
def setEntry (es : List (Identity × HostEntry)) (id : Identity) :
    Option HostEntry → List (Identity × HostEntry)
  | none => eraseEntry es id
  | some e => (id, e) :: eraseEntry es id

/-- The selection weight recorded for an optional store entry; a missing
entry has weight zero. -/
def entryWeight : Option HostEntry → Nat
  | none => 0
  | some e => e.weight

/-- Modelled from the spec: the combined tree effect of giving one identity
a new weight. A zero weight removes the identity from the tree; a positive
weight reweights it when present and inserts it otherwise. -/
def setTreeWeight (t : HostTree) (id : Identity) (w : Nat) : HostTree :=
  if w = 0 then (if t.contains id then t.removeAux id else t)
  else if t.contains id then (t.removeAux id).insertAux id w
  else t.insertAux id w

/-- A verified host announcement as the Synchronizer consumes it: the host's
identity, its advertised terms and the selection weight its terms score to
(zero for ineligible terms). -/
structure Announcement where
  identity : Identity
  terms : Nat
  weight : Nat
deriving DecidableEq

/-- A ledger block as delivered to the Synchronizer: its identity, its
declared parent, its height, and the verified announcements it carries. -/
structure SBlock where
  id : BlockID
  parent : BlockID
  height : Nat
  anns : List Announcement
deriving DecidableEq

/-- Modelled from the spec: the Catalog — the host entry store, the weighted
selection tree over active entries, the cursor (last fully processed ledger
block), and the per-block undo journal retained for rollback. -/
structure Catalog where
  allEntries : List (Identity × HostEntry)
  tree : HostTree
  cursor : BlockID
  journal : List (BlockID × List (Identity × Option HostEntry))
deriving DecidableEq

/-- The Catalog at construction time: empty store and tree, cursor at the
genesis block. -/
def Catalog.init (genesis : BlockID) : Catalog :=
  { allEntries := [], tree := HostTree.nil, cursor := genesis, journal := [] }

/-- The entry the store receives for an announcement: terms replaced,
`lastAnnouncedHeight` advanced, `firstSeenHeight` kept from any prior
entry, `active` exactly when the scored weight is positive. -/
def annEntry (c : Catalog) (h : Nat) (a : Announcement) : HostEntry :=
  { identity := a.identity, terms := a.terms,
    firstSeen :=
      match lookupEntry c.allEntries a.identity with
      | some e => e.firstSeen
      | none => h,
    lastAnnounced := h, weight := a.weight, active := a.weight != 0 }

/-- Modelled from the spec: redo of one verified announcement — upsert the
host entry store, then insert/reweight the weighted selection tree; the
returned pair also records the pre-image (the previous entry snapshot, or
`none` for "did not exist") needed for future undo. -/
def applyAnn (c : Catalog) (h : Nat) (a : Announcement) :
    Catalog × (Identity × Option HostEntry) :=
  ({ c with allEntries := setEntry c.allEntries a.identity (some (annEntry c h a)),
            tree := setTreeWeight c.tree a.identity a.weight },
   (a.identity, lookupEntry c.allEntries a.identity))

/-- Modelled from the spec: undo of one recorded announcement effect — if
the entry had no prior announcement, remove it entirely from the store and
tree; else upsert it back to its previous state and reweight the tree
accordingly. -/
def undoAnn (c : Catalog) (u : Identity × Option HostEntry) : Catalog :=
  { c with allEntries := setEntry c.allEntries u.1 u.2,
           tree := setTreeWeight c.tree u.1 (entryWeight u.2) }

/-- Apply every announcement of a block in order, collecting the undo
records with the most recent effect first. -/
def applyAnns (c : Catalog) (h : Nat) :
    List Announcement → Catalog × List (Identity × Option HostEntry)
  | [] => (c, [])
  | a :: rest =>
    let p := applyAnn c h a
    let q := applyAnns p.1 h rest
    (q.1, q.2 ++ [p.2])

/-- Modelled from the spec: redo of one block — process its announcements,
push the undo journal entry for the block, and advance the cursor to the
block's identity. -/
def applyBlock (c : Catalog) (b : SBlock) : Catalog :=
  let q := applyAnns c b.height b.anns
  { q.1 with cursor := b.id, journal := (b.id, q.2) :: q.1.journal }

/-- Modelled from the spec: undo of one block — pop the block's journal
entry, run its recorded undo records in reverse chronological order, and
move the cursor back to the block's parent. A block with no matching
journal record changes nothing. -/
def revertBlock (c : Catalog) (b : SBlock) : Catalog :=
  match c.journal with
  | [] => c
  | ju :: rest =>
    if ju.1 = b.id then
      { ju.2.foldl undoAnn { c with journal := rest } with cursor := b.parent }
    else c

/-- Synchronization errors: a cursor-linkage mismatch is fatal to a batch. -/
inductive SyncError where
  | desyncDetected : SyncError
deriving DecidableEq

/-- Modelled from the spec: apply a batch of blocks. If the declared parent
of the first applied block does not equal the pre-batch cursor the batch
fails with `DesyncDetected` before any Catalog mutation; otherwise every
block is applied in chronological order and the cursor ends at the last
applied block's identity. -/
def applyBatch (c : Catalog) (bs : List SBlock) : Except SyncError Catalog :=
  match bs with
  | [] => .ok c
  | b :: _ =>
    if b.parent = c.cursor then .ok (bs.foldl applyBlock c)
    else .error .desyncDetected

/-- Modelled from the spec: revert a batch of blocks (listed oldest-first),
processing the blocks in reverse chronological order. -/
def revertBatch (c : Catalog) (bs : List SBlock) : Catalog :=
  bs.reverse.foldl revertBlock c

/-- One Synchronizer step: either an apply-batch or a revert-batch. -/
inductive SyncOp where
  | applyB (bs : List SBlock) : SyncOp
  | revertB (bs : List SBlock) : SyncOp
deriving DecidableEq

/-- Run one Synchronizer step; a failing apply-batch leaves the Catalog
unchanged (batches are atomic from the caller's perspective). -/
def Catalog.applySyncOp (c : Catalog) : SyncOp → Catalog
  | .applyB bs =>
    match applyBatch c bs with
    | .ok c' => c'
    | .error _ => c
  | .revertB bs => revertBatch c bs

/-- A Catalog state reachable from a freshly constructed Catalog by some
sequence of Synchronizer batches. -/
def Catalog.reachableFrom (g : BlockID) (c : Catalog) : Prop :=
  ∃ ops : List SyncOp, c = ops.foldl Catalog.applySyncOp (Catalog.init g)

/-- The internal consistency invariant of the Catalog: the tree's per-identity
weight agrees with the store (coherence), the tree is well-shaped with
positive leaf weights and no identity is at two leaves, the store's `active`
flag records exactly positive weight, and every journal snapshot satisfies
the same flag discipline. -/
structure CatInv (c : Catalog) : Prop where
  coh : ∀ id, c.tree.leafWeight id = entryWeight (lookupEntry c.allEntries id)
  shp : c.tree.shape = true
  pos : c.tree.posW = true
  uniq : ∀ id, c.tree.leafCount id ≤ 1
  actOK : ∀ id e, lookupEntry c.allEntries id = some e → e.active = (e.weight != 0)
  jrnOK : ∀ p, p ∈ c.journal → ∀ u, u ∈ p.2 → ∀ e, u.2 = some e →
    e.active = (e.weight != 0)

/-- Observable agreement of two Catalogs: the same store contents, the same
per-identity tree weight, and the same journal (the cursor is tracked
separately). -/
def CatSame (c1 c2 : Catalog) : Prop :=
  (∀ id, lookupEntry c1.allEntries id = lookupEntry c2.allEntries id) ∧
    (∀ id, c1.tree.leafWeight id = c2.tree.leafWeight id) ∧
    c1.journal = c2.journal

/-- The Catalog `d` observably restores the Catalog `c`: the same store
contents (in particular the same active entry set), the same per-identity
selection weight, and the same cursor. -/
def CatalogRestored (d c : Catalog) : Prop :=
  (∀ id, lookupEntry d.allEntries id = lookupEntry c.allEntries id) ∧
    (∀ id, (∃ e, lookupEntry d.allEntries id = some e ∧ e.active = true) ↔
      ∃ e, lookupEntry c.allEntries id = some e ∧ e.active = true) ∧
    (∀ id, d.tree.leafWeight id = c.tree.leafWeight id) ∧
    d.cursor = c.cursor

/-- C1: calling the host database constructor `New` with a nil state returns
the `ErrNilState` error and no database object. -/
theorem new_nil_state_fails : New none = (none, some HostDBErr.errNilState) := rfl

/-- C2: calling `New` with a non-nil state that has no block at height zero
returns the `ErrMissingGenesisBlock` error and no database object. -/
theorem new_missing_genesis_fails (st : ConsensusState) (h : st.blockAtHeight 0 = none) :
    New (some st) = (none, some HostDBErr.errMissingGenesisBlock) := by
  simp [New, h]

/-- Witness for C2 at the concrete state with no blocks at all. -/
theorem new_missing_genesis_fails_witness :
    (ConsensusState.mk fun _ => none).blockAtHeight 0 = none ∧
      New (some (ConsensusState.mk fun _ => none)) =
        (none, some HostDBErr.errMissingGenesisBlock) :=
  ⟨rfl, new_missing_genesis_fails _ rfl⟩

/-- C9: for every non-nil state with a block at height zero, `New` succeeds,
the returned database's `recentBlock` cursor is the genesis block's ID, and
its `activeHosts` and `allHosts` maps are initialized and empty. -/
theorem new_success_genesis_cursor (st : ConsensusState) (b : Block)
    (h : st.blockAtHeight 0 = some b) :
    ∃ hdb : HostDB, New (some st) = (some hdb, none) ∧ hdb.recentBlock = b.id ∧
      hdb.activeHosts = [] ∧ hdb.allHosts = [] := by
  refine ⟨⟨st, b.id, HostTree.nil, [], []⟩, ?_, rfl, rfl, rfl⟩
  simp [New, h]

/-- Witness for C9 at a concrete state whose genesis block has ID `7`. -/
theorem new_success_genesis_cursor_witness :
    (ConsensusState.mk fun _ => some (Block.mk 7)).blockAtHeight 0 = some (Block.mk 7) ∧
      ∃ hdb : HostDB,
        New (some (ConsensusState.mk fun _ => some (Block.mk 7))) = (some hdb, none) ∧
          hdb.recentBlock = (Block.mk 7).id ∧ hdb.activeHosts = [] ∧ hdb.allHosts = [] :=
  ⟨rfl, new_success_genesis_cursor _ _ rfl⟩

/-- C10: `New` returns exactly one of a present database with no error or no
database with a present error, never both present and never both absent. -/
theorem new_result_exclusive (s : Option ConsensusState) :
    ((New s).1.isSome = true ∧ (New s).2 = none) ∨
      ((New s).1 = none ∧ (New s).2.isSome = true) := by
  match s with
  | none => exact Or.inr ⟨rfl, rfl⟩
  | some st =>
    cases h : st.blockAtHeight 0 with
    | none =>
      refine Or.inr ?_
      constructor <;> simp [New, h]
    | some b =>
      refine Or.inl ?_
      constructor <;> simp [New, h]

theorem HostTree.isNil_nil : HostTree.nil.isNil = true := rfl

theorem HostTree.isNil_node (w s : Nat) (e : Option Identity) (l r : HostTree) :
    (HostTree.node w s e l r).isNil = false := rfl

theorem HostTree.subtreeWeight_nil : HostTree.nil.subtreeWeight = 0 := rfl

theorem HostTree.subtreeWeight_node (w s : Nat) (e : Option Identity) (l r : HostTree) :
    (HostTree.node w s e l r).subtreeWeight = s := rfl

theorem HostTree.insertAux_ne_nil (t : HostTree) (id : Identity) (w : Nat) :
    (t.insertAux id w).isNil = false := by
  cases t with
  | nil => rfl
  | node wt sw e l r =>
    cases e with
    | some eid => rfl
    | none =>
      by_cases h : l.subtreeWeight ≤ r.subtreeWeight <;>
        simp [HostTree.insertAux, HostTree.isNil, h]

theorem HostTree.insertAux_subtreeWeight (t : HostTree) (id : Identity) (w : Nat) :
    (t.insertAux id w).subtreeWeight = t.subtreeWeight + w := by
  cases t with
  | nil => simp [HostTree.insertAux, HostTree.subtreeWeight]
  | node wt sw e l r =>
    cases e with
    | some eid =>
      simp [HostTree.insertAux, HostTree.subtreeWeight_node]
    | none =>
      by_cases h : l.subtreeWeight ≤ r.subtreeWeight
      · simp only [HostTree.insertAux, if_pos h, HostTree.subtreeWeight_node]
      · simp only [HostTree.insertAux, if_neg h, HostTree.subtreeWeight_node]

theorem HostTree.wf_insertAux (t : HostTree) (id : Identity) (w : Nat) (h : t.wf) :
    (t.insertAux id w).wf := by
  induction t with
  | nil =>
    simp [HostTree.insertAux, HostTree.wf, HostTree.subtreeWeight]
  | node wt sw e l r ihl ihr =>
    cases e with
    | some eid =>
      obtain ⟨hsw, hl, hr⟩ := h
      refine ⟨?_, ⟨hsw, hl, hr⟩, ?_⟩
      · simp [HostTree.subtreeWeight]
      · simp [HostTree.wf, HostTree.subtreeWeight]
    | none =>
      obtain ⟨hsw, hl, hr⟩ := h
      by_cases hc : l.subtreeWeight ≤ r.subtreeWeight
      · simp only [HostTree.insertAux, hc, if_true]
        refine ⟨?_, ihl hl, hr⟩
        rw [HostTree.insertAux_subtreeWeight]
        omega
      · simp only [HostTree.insertAux, hc, if_false]
        refine ⟨?_, hl, ihr hr⟩
        rw [HostTree.insertAux_subtreeWeight]
        omega

theorem HostTree.wf_removeAux (t : HostTree) (id : Identity) (h : t.wf) :
    (t.removeAux id).wf := by
  induction t with
  | nil => trivial
  | node wt sw e l r ihl ihr =>
    cases e with
    | some eid =>
      by_cases he : eid = id
      · simp only [HostTree.removeAux, he, if_true]
        trivial
      · simp only [HostTree.removeAux, he, if_false]
        exact h
    | none =>
      obtain ⟨hsw, hl, hr⟩ := h
      simp only [HostTree.removeAux]
      by_cases h1 : (l.removeAux id).isNil
      · simp only [h1, if_true]
        exact ihr hr
      · simp only [h1, if_false]
        by_cases h2 : (r.removeAux id).isNil
        · simp only [h2, if_true]
          exact ihl hl
        · simp only [h2, if_false]
          exact ⟨rfl, ihl hl, ihr hr⟩

theorem HostTree.shape_insertAux (t : HostTree) (id : Identity) (w : Nat)
    (h : t.shape = true) : (t.insertAux id w).shape = true := by
  induction t with
  | nil => rfl
  | node wt sw e l r ihl ihr =>
    cases e with
    | some eid =>
      simp only [HostTree.shape, Bool.and_eq_true] at h
      simp [HostTree.insertAux, HostTree.shape, HostTree.isNil_node, HostTree.isNil_nil,
        h.1, h.2]
    | none =>
      simp only [HostTree.shape, Bool.and_eq_true, Bool.not_eq_true'] at h
      obtain ⟨⟨⟨hln, hrn⟩, hls⟩, hrs⟩ := h
      by_cases hc : l.subtreeWeight ≤ r.subtreeWeight
      · simp only [HostTree.insertAux, hc, if_true]
        simp [HostTree.shape, HostTree.insertAux_ne_nil, ihl hls, hrn, hrs]
      · simp only [HostTree.insertAux, hc, if_false]
        simp [HostTree.shape, HostTree.insertAux_ne_nil, ihr hrs, hln, hls]

theorem HostTree.shape_removeAux (t : HostTree) (id : Identity)
    (h : t.shape = true) : (t.removeAux id).shape = true := by
  induction t with
  | nil => rfl
  | node wt sw e l r ihl ihr =>
    cases e with
    | some eid =>
      by_cases he : eid = id
      · simp [HostTree.removeAux, he, HostTree.shape]
      · simp only [HostTree.removeAux, he, if_false]
        exact h
    | none =>
      simp only [HostTree.shape, Bool.and_eq_true, Bool.not_eq_true'] at h
      obtain ⟨⟨⟨hln, hrn⟩, hls⟩, hrs⟩ := h
      simp only [HostTree.removeAux]
      by_cases h1 : (l.removeAux id).isNil
      · simp only [h1, if_true]
        exact ihr hrs
      · simp only [h1, if_false]
        by_cases h2 : (r.removeAux id).isNil
        · simp only [h2, if_true]
          exact ihl hls
        · simp only [h2, if_false]
          simp [HostTree.shape, h1, h2, ihl hls, ihr hrs]

theorem HostTree.posW_insertAux (t : HostTree) (id : Identity) (w : Nat)
    (hw : w ≠ 0) (h : t.posW = true) : (t.insertAux id w).posW = true := by
  induction t with
  | nil => simp [HostTree.insertAux, HostTree.posW, hw]
  | node wt sw e l r ihl ihr =>
    cases e with
    | some eid =>
      simp only [HostTree.posW, Bool.and_eq_true] at h
      simp [HostTree.insertAux, HostTree.posW, hw, h.1.1, h.1.2, h.2]
    | none =>
      simp only [HostTree.posW, Bool.and_eq_true] at h
      by_cases hc : l.subtreeWeight ≤ r.subtreeWeight
      · simp only [HostTree.insertAux, hc, if_true]
        simp [HostTree.posW, ihl h.1, h.2]
      · simp only [HostTree.insertAux, hc, if_false]
        simp [HostTree.posW, ihr h.2, h.1]

theorem HostTree.posW_removeAux (t : HostTree) (id : Identity)
    (h : t.posW = true) : (t.removeAux id).posW = true := by
  induction t with
  | nil => rfl
  | node wt sw e l r ihl ihr =>
    cases e with
    | some eid =>
      by_cases he : eid = id
      · simp [HostTree.removeAux, he, HostTree.posW]
      · simp only [HostTree.removeAux, he, if_false]
        exact h
    | none =>
      simp only [HostTree.posW, Bool.and_eq_true] at h
      simp only [HostTree.removeAux]
      by_cases h1 : (l.removeAux id).isNil
      · simp only [h1, if_true]
        exact ihr h.2
      · simp only [h1, if_false]
        by_cases h2 : (r.removeAux id).isNil
        · simp only [h2, if_true]
          exact ihl h.1
        · simp only [h2, if_false]
          simp [HostTree.posW, ihl h.1, ihr h.2]

theorem treeInv_nil : TreeInv HostTree.nil := ⟨rfl, trivial, rfl⟩

theorem treeInv_insertAux (t : HostTree) (id : Identity) (w : Nat) (hw : w ≠ 0)
    (h : TreeInv t) : TreeInv (t.insertAux id w) :=
  ⟨HostTree.shape_insertAux t id w h.1, HostTree.wf_insertAux t id w h.2.1,
    HostTree.posW_insertAux t id w hw h.2.2⟩

theorem treeInv_removeAux (t : HostTree) (id : Identity) (h : TreeInv t) :
    TreeInv (t.removeAux id) :=
  ⟨HostTree.shape_removeAux t id h.1, HostTree.wf_removeAux t id h.2.1,
    HostTree.posW_removeAux t id h.2.2⟩

theorem treeInv_insert_ok (t t' : HostTree) (id : Identity) (w : Nat)
    (h : TreeInv t) (he : t.insert id w = .ok t') : TreeInv t' := by
  unfold HostTree.insert at he
  by_cases h0 : w = 0
  · simp [h0] at he
  · simp only [h0, if_false] at he
    by_cases hc : t.contains id = true
    · simp [hc] at he
    · simp [hc] at he
      subst he
      exact treeInv_insertAux t id w h0 h

theorem treeInv_applyOp (t : HostTree) (op : TreeOp) (h : TreeInv t) :
    TreeInv (t.applyOp op) := by
  cases op with
  | insert id w =>
    simp only [HostTree.applyOp]
    cases hE : t.insert id w with
    | error e => exact h
    | ok t' => exact treeInv_insert_ok t t' id w h hE
  | remove id =>
    simp only [HostTree.applyOp]
    cases hE : t.remove id with
    | error e => exact h
    | ok t' =>
      unfold HostTree.remove at hE
      by_cases hc : t.contains id = true
      · simp [hc] at hE
        subst hE
        exact treeInv_removeAux t id h
      · simp [hc] at hE
  | reweight id w =>
    simp only [HostTree.applyOp]
    cases hE : t.reweight id w with
    | error e => exact h
    | ok t' =>
      unfold HostTree.reweight at hE
      by_cases hc : t.contains id = true
      · by_cases h0 : w = 0
        · simp [hc, h0] at hE
          subst hE
          exact treeInv_removeAux t id h
        · simp only [hc, Bool.not_true, Bool.false_eq_true, if_false, h0] at hE
          exact treeInv_insert_ok _ t' id w (treeInv_removeAux t id h) hE
      · simp [hc] at hE

theorem treeInv_foldl (ops : List TreeOp) (t : HostTree) (h : TreeInv t) :
    TreeInv (ops.foldl HostTree.applyOp t) := by
  induction ops generalizing t with
  | nil => exact h
  | cons op rest ih => exact ih (t.applyOp op) (treeInv_applyOp t op h)

theorem treeInv_reachable (t : HostTree) (h : t.reachable) : TreeInv t := by
  obtain ⟨ops, rfl⟩ := h
  exact treeInv_foldl ops HostTree.nil treeInv_nil

/-- C3: in every state of the weighted selection tree reachable by a sequence
of insert, remove and reweight operations, every node's cached
`subtreeWeight` equals its own `weight` plus the `subtreeWeight` of its left
and right children, absent children contributing zero. -/
theorem selection_tree_subtree_weight_invariant (t : HostTree) (h : t.reachable) : t.wf :=
  (treeInv_reachable t h).2.1

/-- Witness for C3 on the tree built by inserting three hosts and removing
one. -/
theorem selection_tree_subtree_weight_invariant_witness :
    HostTree.reachable (List.foldl HostTree.applyOp HostTree.nil
        [TreeOp.insert 1 10, TreeOp.insert 2 30, TreeOp.insert 3 60, TreeOp.remove 2]) ∧
      (List.foldl HostTree.applyOp HostTree.nil
        [TreeOp.insert 1 10, TreeOp.insert 2 30, TreeOp.insert 3 60, TreeOp.remove 2]).wf :=
  ⟨⟨_, rfl⟩, selection_tree_subtree_weight_invariant _ ⟨_, rfl⟩⟩

theorem HostTree.eq_nil_of_isNil (t : HostTree) (h : t.isNil = true) : t = HostTree.nil := by
  cases t with
  | nil => rfl
  | node w s e l r => simp [HostTree.isNil] at h

theorem HostTree.selectAt_contains (t : HostTree) (v : Nat) (x : Identity)
    (h : t.selectAt v = some x) : t.contains x = true := by
  induction t generalizing v with
  | nil => simp [HostTree.selectAt] at h
  | node w sw e l r ihl ihr =>
    simp only [HostTree.selectAt] at h
    by_cases h1 : v < l.subtreeWeight
    · simp only [if_pos h1] at h
      cases e with
      | some eid => simp [HostTree.contains, ihl v h]
      | none => simp [HostTree.contains, ihl v h]
    · simp only [if_neg h1] at h
      by_cases h2 : v < l.subtreeWeight + w
      · simp only [if_pos h2] at h
        cases e with
        | some eid =>
          simp only [Option.some.injEq] at h
          subst h
          simp [HostTree.contains]
        | none => simp at h
      · simp only [if_neg h2] at h
        cases e with
        | some eid => simp [HostTree.contains, ihr _ h]
        | none => simp [HostTree.contains, ihr _ h]

theorem HostTree.contains_removeAux_mono (t : HostTree) (id x : Identity)
    (h : (t.removeAux id).contains x = true) : t.contains x = true := by
  induction t with
  | nil => simpa [HostTree.removeAux] using h
  | node wt sw e l r ihl ihr =>
    cases e with
    | some eid =>
      by_cases he : eid = id
      · simp [HostTree.removeAux, he, HostTree.contains] at h
      · simpa [HostTree.removeAux, he] using h
    | none =>
      simp only [HostTree.removeAux] at h
      simp only [HostTree.contains, Bool.or_eq_true]
      by_cases h1 : (l.removeAux id).isNil = true
      · simp only [if_pos h1] at h
        exact Or.inr (ihr h)
      · simp only [if_neg h1] at h
        by_cases h2 : (r.removeAux id).isNil = true
        · simp only [if_pos h2] at h
          exact Or.inl (ihl h)
        · simp only [if_neg h2] at h
          simp only [HostTree.contains, Bool.or_eq_true] at h
          rcases h with h | h
          · exact Or.inl (ihl h)
          · exact Or.inr (ihr h)

theorem HostTree.contains_removeAux_self (t : HostTree) (id : Identity)
    (hs : t.shape = true) : (t.removeAux id).contains id = false := by
  induction t with
  | nil => rfl
  | node wt sw e l r ihl ihr =>
    cases e with
    | some eid =>
      simp only [HostTree.shape, Bool.and_eq_true] at hs
      obtain rfl := HostTree.eq_nil_of_isNil l hs.1
      obtain rfl := HostTree.eq_nil_of_isNil r hs.2
      by_cases he : eid = id
      · simp [HostTree.removeAux, he, HostTree.contains]
      · simp [HostTree.removeAux, he, HostTree.contains]
    | none =>
      simp only [HostTree.shape, Bool.and_eq_true, Bool.not_eq_true'] at hs
      obtain ⟨⟨⟨hln, hrn⟩, hls⟩, hrs⟩ := hs
      simp only [HostTree.removeAux]
      by_cases h1 : (l.removeAux id).isNil = true
      · simp only [if_pos h1]
        exact ihr hrs
      · simp only [if_neg h1]
        by_cases h2 : (r.removeAux id).isNil = true
        · simp only [if_pos h2]
          exact ihl hls
        · simp only [if_neg h2]
          simp [HostTree.contains, ihl hls, ihr hrs]

theorem HostTree.size_pos_of_shape (t : HostTree) (hs : t.shape = true)
    (hn : t.isNil = false) : 1 ≤ t.size := by
  induction t with
  | nil => simp [HostTree.isNil] at hn
  | node wt sw e l r ihl ihr =>
    cases e with
    | some eid =>
      simp only [HostTree.size, Option.isSome_some, if_true]
      omega
    | none =>
      simp only [HostTree.shape, Bool.and_eq_true, Bool.not_eq_true'] at hs
      have := ihl hs.1.2 hs.1.1.1
      simp only [HostTree.size, Option.isSome_none]
      omega

theorem HostTree.size_removeAux_le (t : HostTree) (id : Identity) :
    (t.removeAux id).size ≤ t.size := by
  induction t with
  | nil => simp [HostTree.removeAux]
  | node wt sw e l r ihl ihr =>
    cases e with
    | some eid =>
      by_cases he : eid = id
      · simp [HostTree.removeAux, he, HostTree.size]
      · simp [HostTree.removeAux, he]
    | none =>
      simp only [HostTree.removeAux]
      by_cases h1 : (l.removeAux id).isNil = true
      · simp only [if_pos h1]
        simp only [HostTree.size, Option.isSome_none]
        omega
      · simp only [if_neg h1]
        by_cases h2 : (r.removeAux id).isNil = true
        · simp only [if_pos h2]
          simp only [HostTree.size, Option.isSome_none]
          omega
        · simp only [if_neg h2]
          simp only [HostTree.size, Option.isSome_none]
          omega

theorem HostTree.size_removeAux_lt (t : HostTree) (id : Identity)
    (hs : t.shape = true) (hc : t.contains id = true) : (t.removeAux id).size < t.size := by
  induction t with
  | nil => simp [HostTree.contains] at hc
  | node wt sw e l r ihl ihr =>
    cases e with
    | some eid =>
      simp only [HostTree.shape, Bool.and_eq_true] at hs
      obtain rfl := HostTree.eq_nil_of_isNil l hs.1
      obtain rfl := HostTree.eq_nil_of_isNil r hs.2
      simp only [HostTree.contains, Bool.or_eq_true, beq_iff_eq] at hc
      rcases hc with (rfl | h) | h
      · simp [HostTree.removeAux, HostTree.size]
      · simp [HostTree.contains] at h
      · simp [HostTree.contains] at h
    | none =>
      simp only [HostTree.shape, Bool.and_eq_true, Bool.not_eq_true'] at hs
      obtain ⟨⟨⟨hln, hrn⟩, hls⟩, hrs⟩ := hs
      have hlp := HostTree.size_pos_of_shape l hls hln
      have hrp := HostTree.size_pos_of_shape r hrs hrn
      have hlle := HostTree.size_removeAux_le l id
      have hrle := HostTree.size_removeAux_le r id
      simp only [HostTree.contains, Bool.or_eq_true] at hc
      simp only [HostTree.removeAux]
      by_cases h1 : (l.removeAux id).isNil = true
      · simp only [if_pos h1]
        simp only [HostTree.size, Option.isSome_none]
        omega
      · simp only [if_neg h1]
        by_cases h2 : (r.removeAux id).isNil = true
        · simp only [if_pos h2]
          simp only [HostTree.size, Option.isSome_none]
          omega
        · simp only [if_neg h2]
          simp only [HostTree.size, Option.isSome_none]
          rcases hc with h | h
          · have := ihl hls h
            omega
          · have := ihr hrs h
            omega

theorem HostTree.mem_drawLoop_contains (rand : Nat → Nat) (k : Nat) (t : HostTree)
    (i : Nat) (x : Identity) (h : x ∈ HostTree.drawLoop rand k t i) : t.contains x = true := by
  induction k generalizing t i with
  | zero => simp [HostTree.drawLoop] at h
  | succ k ih =>
    simp only [HostTree.drawLoop] at h
    by_cases h0 : t.subtreeWeight = 0
    · simp [h0] at h
    · simp only [if_neg h0] at h
      cases hsel : t.selectAt (rand i % t.subtreeWeight) with
      | none => simp [hsel] at h
      | some id =>
        simp only [hsel, List.mem_cons] at h
        rcases h with rfl | h
        · exact HostTree.selectAt_contains t _ x hsel
        · exact HostTree.contains_removeAux_mono t id x (ih (t.removeAux id) (i + 1) h)

theorem HostTree.nodup_drawLoop (rand : Nat → Nat) (k : Nat) (t : HostTree) (i : Nat)
    (hs : t.shape = true) : (HostTree.drawLoop rand k t i).Nodup := by
  induction k generalizing t i with
  | zero => simp [HostTree.drawLoop]
  | succ k ih =>
    simp only [HostTree.drawLoop]
    by_cases h0 : t.subtreeWeight = 0
    · simp [h0]
    · simp only [if_neg h0]
      cases hsel : t.selectAt (rand i % t.subtreeWeight) with
      | none => simp
      | some id =>
        refine List.nodup_cons.mpr ⟨?_, ih _ _ (HostTree.shape_removeAux t id hs)⟩
        intro hmem
        have hcon := HostTree.mem_drawLoop_contains rand k (t.removeAux id) (i + 1) id hmem
        rw [HostTree.contains_removeAux_self t id hs] at hcon
        exact Bool.false_ne_true hcon

theorem HostTree.shape_foldl_removeAux (ex : List Identity) (t : HostTree)
    (hs : t.shape = true) : (ex.foldl HostTree.removeAux t).shape = true := by
  induction ex generalizing t with
  | nil => exact hs
  | cons x rest ih => exact ih (t.removeAux x) (HostTree.shape_removeAux t x hs)

theorem HostTree.drawLoop_length_le_size (rand : Nat → Nat) (k : Nat) (t : HostTree)
    (i : Nat) (hs : t.shape = true) : (HostTree.drawLoop rand k t i).length ≤ t.size := by
  induction k generalizing t i with
  | zero => simp [HostTree.drawLoop]
  | succ k ih =>
    simp only [HostTree.drawLoop]
    by_cases h0 : t.subtreeWeight = 0
    · simp [h0]
    · simp only [if_neg h0]
      cases hsel : t.selectAt (rand i % t.subtreeWeight) with
      | none => simp
      | some id =>
        simp only [List.length_cons]
        have hc := HostTree.selectAt_contains t _ id hsel
        have hlt := HostTree.size_removeAux_lt t id hs hc
        have hrec := ih (t.removeAux id) (i + 1) (HostTree.shape_removeAux t id hs)
        omega

theorem HostTree.foldl_removeAux_nil (ex : List Identity) :
    ex.foldl HostTree.removeAux HostTree.nil = HostTree.nil := by
  induction ex with
  | nil => rfl
  | cons x rest ih => exact ih

/-- C7: on every reachable tree state, a single `selectRandom(n, exclude)`
call never returns the same identity twice in its result. -/
theorem select_random_no_duplicates (t : HostTree) (n : Nat) (exclude : List Identity)
    (rand : Nat → Nat) (h : t.reachable) : (t.selectRandom n exclude rand).Nodup := by
  obtain ⟨hs, -, -⟩ := treeInv_reachable t h
  exact HostTree.nodup_drawLoop rand n _ 0 (HostTree.shape_foldl_removeAux exclude t hs)

/-- Witness for C7 on a tree holding two hosts, drawing two entries. -/
theorem select_random_no_duplicates_witness :
    HostTree.reachable
        (List.foldl HostTree.applyOp HostTree.nil [TreeOp.insert 1 5, TreeOp.insert 2 7]) ∧
      ((List.foldl HostTree.applyOp HostTree.nil
          [TreeOp.insert 1 5, TreeOp.insert 2 7]).selectRandom 2 [] fun _ => 3).Nodup :=
  ⟨⟨_, rfl⟩, select_random_no_duplicates _ 2 [] (fun _ => 3) ⟨_, rfl⟩⟩

/-- C8: on every reachable tree state `selectRandom` never fails: when the
eligible pool (after removing the excluded identities) holds fewer than `n`
entries the call returns fewer than `n` entries, and on an empty tree it
returns zero entries rather than an error. -/
theorem select_random_never_errors (t : HostTree) (n : Nat) (exclude : List Identity)
    (rand : Nat → Nat) (h : t.reachable) :
    ((exclude.foldl HostTree.removeAux t).size < n →
        (t.selectRandom n exclude rand).length < n) ∧
      (t = HostTree.nil → t.selectRandom n exclude rand = []) := by
  obtain ⟨hs, -, -⟩ := treeInv_reachable t h
  constructor
  · intro hlt
    have hb := HostTree.drawLoop_length_le_size rand n (exclude.foldl HostTree.removeAux t) 0
      (HostTree.shape_foldl_removeAux exclude t hs)
    unfold HostTree.selectRandom
    omega
  · rintro rfl
    unfold HostTree.selectRandom
    rw [HostTree.foldl_removeAux_nil]
    cases n with
    | zero => rfl
    | succ k => simp [HostTree.drawLoop, HostTree.subtreeWeight]

/-- Witness for C8 on the empty tree with a request for one entry. -/
theorem select_random_never_errors_witness :
    HostTree.reachable HostTree.nil ∧
      ((([] : List Identity).foldl HostTree.removeAux HostTree.nil).size < 1 →
          (HostTree.nil.selectRandom 1 [] fun _ => 0).length < 1) ∧
        (HostTree.nil = HostTree.nil → HostTree.nil.selectRandom 1 [] (fun _ => 0) = []) :=
  ⟨⟨[], rfl⟩, select_random_never_errors HostTree.nil 1 [] (fun _ => 0) ⟨[], rfl⟩⟩

/-- C6: a batch whose first applied block declares a parent different from
the current cursor fails with `DesyncDetected`, and running that batch
through the Synchronizer leaves the Catalog (entry store, tree and cursor)
unchanged. -/
theorem desync_detected_leaves_catalog_unchanged (c : Catalog) (b : SBlock)
    (bs : List SBlock) (h : b.parent ≠ c.cursor) :
    applyBatch c (b :: bs) = .error SyncError.desyncDetected ∧
      Catalog.applySyncOp c (SyncOp.applyB (b :: bs)) = c := by
  have h1 : applyBatch c (b :: bs) = .error SyncError.desyncDetected := by
    simp [applyBatch, h]
  refine ⟨h1, ?_⟩
  simp [Catalog.applySyncOp, h1]

/-- Witness for C6: a block claiming parent `5` fed to a fresh Catalog whose
cursor is the genesis block `0`. -/
theorem desync_detected_leaves_catalog_unchanged_witness :
    (SBlock.mk 1 5 1 []).parent ≠ (Catalog.init 0).cursor ∧
      applyBatch (Catalog.init 0) [SBlock.mk 1 5 1 []] = .error SyncError.desyncDetected ∧
        Catalog.applySyncOp (Catalog.init 0) (SyncOp.applyB [SBlock.mk 1 5 1 []]) =
          Catalog.init 0 :=
  ⟨by decide, desync_detected_leaves_catalog_unchanged (Catalog.init 0) (SBlock.mk 1 5 1 [])
    [] (by decide)⟩

theorem HostTree.leafWeight_eq_zero_of_not_contains (t : HostTree) (id : Identity)
    (h : t.contains id = false) : t.leafWeight id = 0 := by
  induction t with
  | nil => rfl
  | node wt sw e l r ihl ihr =>
    cases e with
    | some eid =>
      simp only [HostTree.contains, Bool.or_eq_false_iff, beq_eq_false_iff_ne] at h
      simp [HostTree.leafWeight, h.1.1, ihl h.1.2, ihr h.2]
    | none =>
      simp only [HostTree.contains, Bool.or_eq_false_iff] at h
      simp [HostTree.leafWeight, ihl h.1, ihr h.2]

theorem HostTree.leafCount_eq_zero_of_not_contains (t : HostTree) (id : Identity)
    (h : t.contains id = false) : t.leafCount id = 0 := by
  induction t with
  | nil => rfl
  | node wt sw e l r ihl ihr =>
    cases e with
    | some eid =>
      simp only [HostTree.contains, Bool.or_eq_false_iff, beq_eq_false_iff_ne] at h
      simp [HostTree.leafCount, h.1.1, ihl h.1.2, ihr h.2]
    | none =>
      simp only [HostTree.contains, Bool.or_eq_false_iff] at h
      simp [HostTree.leafCount, ihl h.1, ihr h.2]

theorem HostTree.leafWeight_pos_of_contains (t : HostTree) (id : Identity)
    (hp : t.posW = true) (hc : t.contains id = true) : 0 < t.leafWeight id := by
  induction t with
  | nil => simp [HostTree.contains] at hc
  | node wt sw e l r ihl ihr =>
    cases e with
    | some eid =>
      simp only [HostTree.posW, Bool.and_eq_true, bne_iff_ne] at hp
      simp only [HostTree.contains, Bool.or_eq_true, beq_iff_eq] at hc
      simp only [HostTree.leafWeight]
      rcases hc with (heq | h) | h
      · have hw := hp.1.1
        rw [if_pos heq]
        omega
      · have := ihl hp.1.2 h
        omega
      · have := ihr hp.2 h
        omega
    | none =>
      simp only [HostTree.posW, Bool.and_eq_true] at hp
      simp only [HostTree.contains, Bool.or_eq_true] at hc
      simp only [HostTree.leafWeight]
      rcases hc with h | h
      · have := ihl hp.1 h
        omega
      · have := ihr hp.2 h
        omega

theorem HostTree.insertAux_leafWeight (t : HostTree) (id : Identity) (w : Nat) (x : Identity) :
    (t.insertAux id w).leafWeight x = t.leafWeight x + (if id = x then w else 0) := by
  induction t with
  | nil =>
    simp [HostTree.insertAux, HostTree.leafWeight]
  | node wt sw e l r ihl ihr =>
    cases e with
    | some eid =>
      simp only [HostTree.insertAux, HostTree.leafWeight]
      omega
    | none =>
      by_cases h : l.subtreeWeight ≤ r.subtreeWeight
      · simp only [HostTree.insertAux, if_pos h, HostTree.leafWeight, ihl]
        omega
      · simp only [HostTree.insertAux, if_neg h, HostTree.leafWeight, ihr]
        omega

theorem HostTree.insertAux_leafCount (t : HostTree) (id : Identity) (w : Nat) (x : Identity) :
    (t.insertAux id w).leafCount x = t.leafCount x + (if id = x then 1 else 0) := by
  induction t with
  | nil =>
    simp [HostTree.insertAux, HostTree.leafCount]
  | node wt sw e l r ihl ihr =>
    cases e with
    | some eid =>
      simp only [HostTree.insertAux, HostTree.leafCount]
      omega
    | none =>
      by_cases h : l.subtreeWeight ≤ r.subtreeWeight
      · simp only [HostTree.insertAux, if_pos h, HostTree.leafCount, ihl]
        omega
      · simp only [HostTree.insertAux, if_neg h, HostTree.leafCount, ihr]
        omega

theorem HostTree.removeAux_leafWeight (t : HostTree) (id x : Identity)
    (hs : t.shape = true) : (t.removeAux id).leafWeight x = if id = x then 0 else t.leafWeight x := by
  induction t with
  | nil => simp [HostTree.removeAux, HostTree.leafWeight]
  | node wt sw e l r ihl ihr =>
    cases e with
    | some eid =>
      simp only [HostTree.shape, Bool.and_eq_true] at hs
      obtain rfl := HostTree.eq_nil_of_isNil l hs.1
      obtain rfl := HostTree.eq_nil_of_isNil r hs.2
      by_cases he : eid = id
      · subst he
        by_cases hx : eid = x
        · subst hx
          simp [HostTree.removeAux, HostTree.leafWeight]
        · simp [HostTree.removeAux, HostTree.leafWeight, hx]
      · by_cases hx : id = x
        · subst hx
          simp [HostTree.removeAux, he, HostTree.leafWeight, Ne.symm he]
        · simp [HostTree.removeAux, he, hx]
    | none =>
      simp only [HostTree.shape, Bool.and_eq_true, Bool.not_eq_true'] at hs
      obtain ⟨⟨⟨hln, hrn⟩, hls⟩, hrs⟩ := hs
      have ihl' := ihl hls
      have ihr' := ihr hrs
      simp only [HostTree.removeAux]
      by_cases h1 : (l.removeAux id).isNil = true
      · obtain hle := HostTree.eq_nil_of_isNil _ h1
        rw [hle] at ihl'
        simp only [HostTree.leafWeight] at ihl'
        simp only [if_pos h1, HostTree.leafWeight]
        by_cases hx : id = x
        · simp only [if_pos hx] at ihl' ⊢
          rw [ihr hrs]
          simp [hx]
        · simp only [if_neg hx] at ihl' ⊢
          rw [ihr hrs]
          simp only [if_neg hx]
          omega
      · simp only [if_neg h1]
        by_cases h2 : (r.removeAux id).isNil = true
        · obtain hre := HostTree.eq_nil_of_isNil _ h2
          rw [hre] at ihr'
          simp only [HostTree.leafWeight] at ihr'
          simp only [if_pos h2, HostTree.leafWeight]
          by_cases hx : id = x
          · simp only [if_pos hx] at ihl' ⊢
            exact ihl'
          · simp only [if_neg hx] at ihr' ihl' ⊢
            omega
        · simp only [if_neg h2, HostTree.leafWeight]
          rw [ihl', ihr']
          by_cases hx : id = x <;> simp [hx]

theorem HostTree.removeAux_leafCount (t : HostTree) (id x : Identity)
    (hs : t.shape = true) : (t.removeAux id).leafCount x = if id = x then 0 else t.leafCount x := by
  induction t with
  | nil => simp [HostTree.removeAux, HostTree.leafCount]
  | node wt sw e l r ihl ihr =>
    cases e with
    | some eid =>
      simp only [HostTree.shape, Bool.and_eq_true] at hs
      obtain rfl := HostTree.eq_nil_of_isNil l hs.1
      obtain rfl := HostTree.eq_nil_of_isNil r hs.2
      by_cases he : eid = id
      · subst he
        by_cases hx : eid = x
        · subst hx
          simp [HostTree.removeAux, HostTree.leafCount]
        · simp [HostTree.removeAux, HostTree.leafCount, hx]
      · by_cases hx : id = x
        · subst hx
          simp [HostTree.removeAux, he, HostTree.leafCount, Ne.symm he]
        · simp [HostTree.removeAux, he, hx]
    | none =>
      simp only [HostTree.shape, Bool.and_eq_true, Bool.not_eq_true'] at hs
      obtain ⟨⟨⟨hln, hrn⟩, hls⟩, hrs⟩ := hs
      have ihl' := ihl hls
      have ihr' := ihr hrs
      simp only [HostTree.removeAux]
      by_cases h1 : (l.removeAux id).isNil = true
      · obtain hle := HostTree.eq_nil_of_isNil _ h1
        rw [hle] at ihl'
        simp only [HostTree.leafCount] at ihl'
        simp only [if_pos h1, HostTree.leafCount]
        by_cases hx : id = x
        · simp only [if_pos hx] at ihl' ⊢
          rw [ihr hrs]
          simp [hx]
        · simp only [if_neg hx] at ihl' ⊢
          rw [ihr hrs]
          simp only [if_neg hx]
          omega
      · simp only [if_neg h1]
        by_cases h2 : (r.removeAux id).isNil = true
        · obtain hre := HostTree.eq_nil_of_isNil _ h2
          rw [hre] at ihr'
          simp only [HostTree.leafCount] at ihr'
          simp only [if_pos h2, HostTree.leafCount]
          by_cases hx : id = x
          · simp only [if_pos hx] at ihl' ⊢
            exact ihl'
          · simp only [if_neg hx] at ihr' ihl' ⊢
            omega
        · simp only [if_neg h2, HostTree.leafCount]
          rw [ihl', ihr']
          by_cases hx : id = x <;> simp [hx]

theorem setTreeWeight_leafWeight (t : HostTree) (id : Identity) (w : Nat) (x : Identity)
    (hs : t.shape = true) :
    (setTreeWeight t id w).leafWeight x = if id = x then w else t.leafWeight x := by
  unfold setTreeWeight
  by_cases h0 : w = 0
  · subst h0
    simp only [if_pos rfl]
    by_cases hc : t.contains id = true
    · simp only [hc, if_true]
      rw [HostTree.removeAux_leafWeight t id x hs]
    · simp only [hc, if_false]
      simp only [Bool.not_eq_true] at hc
      by_cases hx : id = x
      · subst hx
        simp [HostTree.leafWeight_eq_zero_of_not_contains t id hc]
      · simp [hx]
  · simp only [if_neg h0]
    by_cases hc : t.contains id = true
    · simp only [hc, if_true]
      rw [HostTree.insertAux_leafWeight, HostTree.removeAux_leafWeight t id x hs]
      by_cases hx : id = x <;> simp [hx]
    · simp only [Bool.not_eq_true] at hc
      rw [if_neg (by simp [hc])]
      rw [HostTree.insertAux_leafWeight]
      by_cases hx : id = x
      · subst hx
        simp [HostTree.leafWeight_eq_zero_of_not_contains t id hc]
      · simp [hx]

theorem setTreeWeight_leafCount (t : HostTree) (id : Identity) (w : Nat) (x : Identity)
    (hs : t.shape = true) :
    (setTreeWeight t id w).leafCount x =
      if id = x then (if w = 0 then 0 else 1) else t.leafCount x := by
  unfold setTreeWeight
  by_cases h0 : w = 0
  · subst h0
    simp only [if_pos rfl]
    by_cases hc : t.contains id = true
    · simp only [hc, if_true]
      rw [HostTree.removeAux_leafCount t id x hs]
    · simp only [hc, if_false]
      simp only [Bool.not_eq_true] at hc
      by_cases hx : id = x
      · subst hx
        simp [HostTree.leafCount_eq_zero_of_not_contains t id hc]
      · simp [hx]
  · simp only [if_neg h0]
    by_cases hc : t.contains id = true
    · simp only [hc, if_true]
      rw [HostTree.insertAux_leafCount, HostTree.removeAux_leafCount t id x hs]
      by_cases hx : id = x <;> simp [hx, h0]
    · simp only [Bool.not_eq_true] at hc
      rw [if_neg (by simp [hc])]
      rw [HostTree.insertAux_leafCount]
      by_cases hx : id = x
      · subst hx
        simp [HostTree.leafCount_eq_zero_of_not_contains t id hc, h0]
      · simp [hx]

theorem shape_setTreeWeight (t : HostTree) (id : Identity) (w : Nat)
    (hs : t.shape = true) : (setTreeWeight t id w).shape = true := by
  unfold setTreeWeight
  by_cases h0 : w = 0
  · simp only [h0, if_pos rfl]
    by_cases hc : t.contains id = true
    · simp only [hc, if_true]
      exact HostTree.shape_removeAux t id hs
    · simp only [hc, if_false]
      exact hs
  · simp only [if_neg h0]
    by_cases hc : t.contains id = true
    · simp only [hc, if_true]
      exact HostTree.shape_insertAux _ id w (HostTree.shape_removeAux t id hs)
    · simp only [hc, if_false]
      exact HostTree.shape_insertAux t id w hs

theorem posW_setTreeWeight (t : HostTree) (id : Identity) (w : Nat)
    (hp : t.posW = true) : (setTreeWeight t id w).posW = true := by
  unfold setTreeWeight
  by_cases h0 : w = 0
  · simp only [h0, if_pos rfl]
    by_cases hc : t.contains id = true
    · simp only [hc, if_true]
      exact HostTree.posW_removeAux t id hp
    · simp only [hc, if_false]
      exact hp
  · simp only [if_neg h0]
    by_cases hc : t.contains id = true
    · simp only [hc, if_true]
      exact HostTree.posW_insertAux _ id w h0 (HostTree.posW_removeAux t id hp)
    · simp only [hc, if_false]
      exact HostTree.posW_insertAux t id w h0 hp

theorem lookupEntry_eraseEntry (es : List (Identity × HostEntry)) (id x : Identity) :
    lookupEntry (eraseEntry es id) x = if id = x then none else lookupEntry es x := by
  induction es with
  | nil => simp [eraseEntry, lookupEntry]
  | cons p rest ih =>
    obtain ⟨k, v⟩ := p
    by_cases hk : k = id
    · simp only [eraseEntry]
      rw [if_pos hk, ih]
      by_cases hx : id = x
      · simp [lookupEntry, hx]
      · simp [lookupEntry, hx, hk]
    · simp only [eraseEntry, if_neg hk]
      simp only [lookupEntry]
      by_cases hx : k = x
      · subst hx
        have hne : ¬id = k := fun h => hk h.symm
        simp [lookupEntry, hne]
      · simp [lookupEntry, hx, ih]

theorem lookupEntry_setEntry (es : List (Identity × HostEntry)) (id : Identity)
    (v : Option HostEntry) (x : Identity) :
    lookupEntry (setEntry es id v) x = if id = x then v else lookupEntry es x := by
  cases v with
  | none => simpa [setEntry] using lookupEntry_eraseEntry es id x
  | some e =>
    simp only [setEntry, lookupEntry]
    by_cases hx : id = x
    · simp [hx]
    · simp [hx, lookupEntry_eraseEntry es id x]

theorem catInv_init (g : BlockID) : CatInv (Catalog.init g) := by
  constructor
  · intro id
    simp [Catalog.init, HostTree.leafWeight, lookupEntry, entryWeight]
  · rfl
  · rfl
  · intro id
    simp [Catalog.init, HostTree.leafCount]
  · intro id e h
    simp [Catalog.init, lookupEntry] at h
  · intro p hp
    simp [Catalog.init] at hp

theorem applyAnn_fst_allEntries (c : Catalog) (h : Nat) (a : Announcement) :
    (applyAnn c h a).1.allEntries = setEntry c.allEntries a.identity (some (annEntry c h a)) :=
  rfl

theorem applyAnn_fst_tree (c : Catalog) (h : Nat) (a : Announcement) :
    (applyAnn c h a).1.tree = setTreeWeight c.tree a.identity a.weight := rfl

theorem applyAnn_fst_cursor (c : Catalog) (h : Nat) (a : Announcement) :
    (applyAnn c h a).1.cursor = c.cursor := rfl

theorem applyAnn_fst_journal (c : Catalog) (h : Nat) (a : Announcement) :
    (applyAnn c h a).1.journal = c.journal := rfl

theorem applyAnn_snd (c : Catalog) (h : Nat) (a : Announcement) :
    (applyAnn c h a).2 = (a.identity, lookupEntry c.allEntries a.identity) := rfl

theorem undoAnn_allEntries (c : Catalog) (u : Identity × Option HostEntry) :
    (undoAnn c u).allEntries = setEntry c.allEntries u.1 u.2 := rfl

theorem undoAnn_tree (c : Catalog) (u : Identity × Option HostEntry) :
    (undoAnn c u).tree = setTreeWeight c.tree u.1 (entryWeight u.2) := rfl

theorem undoAnn_cursor (c : Catalog) (u : Identity × Option HostEntry) :
    (undoAnn c u).cursor = c.cursor := rfl

theorem undoAnn_journal (c : Catalog) (u : Identity × Option HostEntry) :
    (undoAnn c u).journal = c.journal := rfl

theorem catInv_applyAnn (c : Catalog) (h : Nat) (a : Announcement) (hc : CatInv c) :
    CatInv (applyAnn c h a).1 := by
  constructor
  · intro id
    rw [applyAnn_fst_tree, applyAnn_fst_allEntries,
        setTreeWeight_leafWeight _ _ _ _ hc.shp, lookupEntry_setEntry]
    by_cases hx : a.identity = id
    · simp [hx, entryWeight, annEntry]
    · simp [hx, hc.coh id]
  · rw [applyAnn_fst_tree]
    exact shape_setTreeWeight _ _ _ hc.shp
  · rw [applyAnn_fst_tree]
    exact posW_setTreeWeight _ _ _ hc.pos
  · intro id
    rw [applyAnn_fst_tree, setTreeWeight_leafCount _ _ _ _ hc.shp]
    by_cases hx : a.identity = id
    · simp only [if_pos hx]
      by_cases h0 : a.weight = 0 <;> simp [h0]
    · simp only [if_neg hx]
      exact hc.uniq id
  · intro id e hlook
    rw [applyAnn_fst_allEntries, lookupEntry_setEntry] at hlook
    by_cases hx : a.identity = id
    · rw [if_pos hx] at hlook
      obtain rfl : annEntry c h a = e := by simpa using hlook
      rfl
    · rw [if_neg hx] at hlook
      exact hc.actOK id e hlook
  · intro p hp u hu e hue
    rw [applyAnn_fst_journal] at hp
    exact hc.jrnOK p hp u hu e hue

theorem catInv_undoAnn (c : Catalog) (u : Identity × Option HostEntry) (hc : CatInv c)
    (hu : ∀ e, u.2 = some e → e.active = (e.weight != 0)) : CatInv (undoAnn c u) := by
  constructor
  · intro id
    rw [undoAnn_tree, undoAnn_allEntries,
        setTreeWeight_leafWeight _ _ _ _ hc.shp, lookupEntry_setEntry]
    by_cases hx : u.1 = id
    · simp [hx]
    · simp [hx, hc.coh id]
  · rw [undoAnn_tree]
    exact shape_setTreeWeight _ _ _ hc.shp
  · rw [undoAnn_tree]
    exact posW_setTreeWeight _ _ _ hc.pos
  · intro id
    rw [undoAnn_tree, setTreeWeight_leafCount _ _ _ _ hc.shp]
    by_cases hx : u.1 = id
    · simp only [if_pos hx]
      by_cases h0 : entryWeight u.2 = 0 <;> simp [h0]
    · simp only [if_neg hx]
      exact hc.uniq id
  · intro id e hlook
    rw [undoAnn_allEntries, lookupEntry_setEntry] at hlook
    by_cases hx : u.1 = id
    · rw [if_pos hx] at hlook
      exact hu e hlook
    · rw [if_neg hx] at hlook
      exact hc.actOK id e hlook
  · intro p hp u' hu' e hue
    rw [undoAnn_journal] at hp
    exact hc.jrnOK p hp u' hu' e hue

theorem applyAnns_nil_fst (c : Catalog) (h : Nat) : (applyAnns c h []).1 = c := rfl

theorem applyAnns_nil_snd (c : Catalog) (h : Nat) : (applyAnns c h []).2 = [] := rfl

theorem applyAnns_cons_fst (c : Catalog) (h : Nat) (a : Announcement)
    (rest : List Announcement) :
    (applyAnns c h (a :: rest)).1 = (applyAnns (applyAnn c h a).1 h rest).1 := rfl

theorem applyAnns_cons_snd (c : Catalog) (h : Nat) (a : Announcement)
    (rest : List Announcement) :
    (applyAnns c h (a :: rest)).2 =
      (applyAnns (applyAnn c h a).1 h rest).2 ++ [(applyAnn c h a).2] := rfl

theorem catInv_applyAnns (c : Catalog) (h : Nat) (as : List Announcement) (hc : CatInv c) :
    CatInv (applyAnns c h as).1 ∧
      ∀ u, u ∈ (applyAnns c h as).2 → ∀ e, u.2 = some e → e.active = (e.weight != 0) := by
  induction as generalizing c with
  | nil =>
    refine ⟨hc, ?_⟩
    intro u hu
    rw [applyAnns_nil_snd] at hu
    simp at hu
  | cons a rest ih =>
    obtain ⟨h1, h2⟩ := ih (applyAnn c h a).1 (catInv_applyAnn c h a hc)
    rw [applyAnns_cons_fst, applyAnns_cons_snd]
    refine ⟨h1, ?_⟩
    intro u hu e hue
    rcases List.mem_append.mp hu with hu | hu
    · exact h2 u hu e hue
    · obtain rfl := List.mem_singleton.mp hu
      rw [applyAnn_snd] at hue
      exact hc.actOK a.identity e hue

theorem applyBlock_allEntries (c : Catalog) (b : SBlock) :
    (applyBlock c b).allEntries = (applyAnns c b.height b.anns).1.allEntries := rfl

theorem applyBlock_tree (c : Catalog) (b : SBlock) :
    (applyBlock c b).tree = (applyAnns c b.height b.anns).1.tree := rfl

theorem applyBlock_cursor (c : Catalog) (b : SBlock) : (applyBlock c b).cursor = b.id := rfl

theorem applyBlock_journal (c : Catalog) (b : SBlock) :
    (applyBlock c b).journal =
      (b.id, (applyAnns c b.height b.anns).2) :: (applyAnns c b.height b.anns).1.journal := rfl

theorem catInv_applyBlock (c : Catalog) (b : SBlock) (hc : CatInv c) :
    CatInv (applyBlock c b) := by
  obtain ⟨h1, h2⟩ := catInv_applyAnns c b.height b.anns hc
  constructor
  · intro id
    rw [applyBlock_tree, applyBlock_allEntries]
    exact h1.coh id
  · rw [applyBlock_tree]
    exact h1.shp
  · rw [applyBlock_tree]
    exact h1.pos
  · intro id
    rw [applyBlock_tree]
    exact h1.uniq id
  · intro id e hl
    rw [applyBlock_allEntries] at hl
    exact h1.actOK id e hl
  · intro p hp u hu e hue
    rw [applyBlock_journal] at hp
    rcases List.mem_cons.mp hp with hp | hp
    · subst hp
      exact h2 u hu e hue
    · exact h1.jrnOK p hp u hu e hue

theorem catInv_setCursor (c : Catalog) (k : BlockID) (hc : CatInv c) :
    CatInv { c with cursor := k } :=
  ⟨hc.coh, hc.shp, hc.pos, hc.uniq, hc.actOK, hc.jrnOK⟩

theorem catInv_undoFold (us : List (Identity × Option HostEntry)) (c : Catalog)
    (hc : CatInv c)
    (hus : ∀ u, u ∈ us → ∀ e, u.2 = some e → e.active = (e.weight != 0)) :
    CatInv (us.foldl undoAnn c) := by
  induction us generalizing c with
  | nil => exact hc
  | cons u rest ih =>
    simp only [List.foldl_cons]
    exact ih (undoAnn c u)
      (catInv_undoAnn c u hc (hus u (List.mem_cons_self u rest)))
      (fun u' hu' => hus u' (List.mem_cons_of_mem u hu'))

theorem catInv_revertBlock (c : Catalog) (b : SBlock) (hc : CatInv c) :
    CatInv (revertBlock c b) := by
  cases hj : c.journal with
  | nil =>
    simp only [revertBlock, hj]
    exact hc
  | cons ju rest =>
    simp only [revertBlock, hj]
    by_cases hb : ju.1 = b.id
    · simp only [if_pos hb]
      have hbase : CatInv { c with journal := rest } := by
        refine ⟨hc.coh, hc.shp, hc.pos, hc.uniq, hc.actOK, ?_⟩
        intro p hp u hu e hue
        refine hc.jrnOK p ?_ u hu e hue
        rw [hj]
        exact List.mem_cons_of_mem _ hp
      have hfold := catInv_undoFold ju.2 { c with journal := rest } hbase
        (hc.jrnOK ju (by rw [hj]; exact List.mem_cons_self ju rest))
      exact catInv_setCursor _ _ hfold
    · simp only [if_neg hb]
      exact hc

theorem catInv_applyBlocks (bs : List SBlock) (c : Catalog) (hc : CatInv c) :
    CatInv (bs.foldl applyBlock c) := by
  induction bs generalizing c with
  | nil => exact hc
  | cons b rest ih =>
    simp only [List.foldl_cons]
    exact ih (applyBlock c b) (catInv_applyBlock c b hc)

theorem catInv_revertBlocks (bs : List SBlock) (c : Catalog) (hc : CatInv c) :
    CatInv (bs.foldl revertBlock c) := by
  induction bs generalizing c with
  | nil => exact hc
  | cons b rest ih =>
    simp only [List.foldl_cons]
    exact ih (revertBlock c b) (catInv_revertBlock c b hc)

theorem catInv_applySyncOp (c : Catalog) (op : SyncOp) (hc : CatInv c) :
    CatInv (c.applySyncOp op) := by
  cases op with
  | applyB bs =>
    simp only [Catalog.applySyncOp]
    cases hE : applyBatch c bs with
    | error e => exact hc
    | ok c' =>
      cases bs with
      | nil =>
        simp only [applyBatch, Except.ok.injEq] at hE
        subst hE
        exact hc
      | cons b rest =>
        simp only [applyBatch] at hE
        by_cases hp : b.parent = c.cursor
        · rw [if_pos hp] at hE
          simp only [Except.ok.injEq] at hE
          subst hE
          exact catInv_applyBlocks (b :: rest) c hc
        · simp [hp] at hE
  | revertB bs =>
    simp only [Catalog.applySyncOp, revertBatch]
    exact catInv_revertBlocks bs.reverse c hc

theorem catInv_foldlOps (ops : List SyncOp) (c : Catalog) (hc : CatInv c) :
    CatInv (ops.foldl Catalog.applySyncOp c) := by
  induction ops generalizing c with
  | nil => exact hc
  | cons op rest ih =>
    simp only [List.foldl_cons]
    exact ih (c.applySyncOp op) (catInv_applySyncOp c op hc)

theorem catInv_reachable (g : BlockID) (c : Catalog) (h : Catalog.reachableFrom g c) :
    CatInv c := by
  obtain ⟨ops, rfl⟩ := h
  exact catInv_foldlOps ops (Catalog.init g) (catInv_init g)

/-- C4: in every reachable Catalog state the identities present as leaves of
the weighted selection tree are exactly the store entries with `active =
true`, and no identity appears at more than one leaf. -/
theorem tree_matches_active_store_entries (g : BlockID) (c : Catalog)
    (h : Catalog.reachableFrom g c) :
    (∀ id, c.tree.contains id = true ↔
        ∃ e, lookupEntry c.allEntries id = some e ∧ e.active = true) ∧
      ∀ id, c.tree.leafCount id ≤ 1 := by
  have hc := catInv_reachable g c h
  refine ⟨?_, hc.uniq⟩
  intro id
  constructor
  · intro hcon
    have hpos := HostTree.leafWeight_pos_of_contains c.tree id hc.pos hcon
    rw [hc.coh id] at hpos
    cases hlook : lookupEntry c.allEntries id with
    | none =>
      rw [hlook] at hpos
      simp [entryWeight] at hpos
    | some e =>
      rw [hlook] at hpos
      simp only [entryWeight] at hpos
      refine ⟨e, rfl, ?_⟩
      rw [hc.actOK id e hlook]
      simp only [bne_iff_ne, ne_eq]
      omega
  · rintro ⟨e, hlook, hact⟩
    have h2 := hc.actOK id e hlook
    rw [hact] at h2
    have hw : e.weight ≠ 0 := bne_iff_ne.mp h2.symm
    have hlw : c.tree.leafWeight id ≠ 0 := by
      rw [hc.coh id, hlook]
      simpa [entryWeight] using hw
    by_contra hcon
    simp only [Bool.not_eq_true] at hcon
    exact hlw (HostTree.leafWeight_eq_zero_of_not_contains c.tree id hcon)

/-- Witness for C4 on the Catalog after one applied block announcing one
host. -/
theorem tree_matches_active_store_entries_witness :
    Catalog.reachableFrom 0 (List.foldl Catalog.applySyncOp (Catalog.init 0)
        [SyncOp.applyB [SBlock.mk 1 0 1 [Announcement.mk 5 42 10]]]) ∧
      ((∀ id, (List.foldl Catalog.applySyncOp (Catalog.init 0)
            [SyncOp.applyB [SBlock.mk 1 0 1 [Announcement.mk 5 42 10]]]).tree.contains id =
              true ↔
          ∃ e, lookupEntry (List.foldl Catalog.applySyncOp (Catalog.init 0)
              [SyncOp.applyB [SBlock.mk 1 0 1 [Announcement.mk 5 42 10]]]).allEntries id =
                some e ∧ e.active = true) ∧
        ∀ id, (List.foldl Catalog.applySyncOp (Catalog.init 0)
            [SyncOp.applyB [SBlock.mk 1 0 1 [Announcement.mk 5 42 10]]]).tree.leafCount id ≤ 1) :=
  ⟨⟨_, rfl⟩, tree_matches_active_store_entries 0 _ ⟨_, rfl⟩⟩

theorem applyAnn_snd_fst (c : Catalog) (h : Nat) (a : Announcement) :
    (applyAnn c h a).2.1 = a.identity := rfl

theorem applyAnn_snd_snd (c : Catalog) (h : Nat) (a : Announcement) :
    (applyAnn c h a).2.2 = lookupEntry c.allEntries a.identity := rfl

theorem applyAnns_fst_journal (c : Catalog) (h : Nat) (as : List Announcement) :
    (applyAnns c h as).1.journal = c.journal := by
  induction as generalizing c with
  | nil => rfl
  | cons a rest ih =>
    rw [applyAnns_cons_fst, ih, applyAnn_fst_journal]

theorem catSame_refl (c : Catalog) : CatSame c c :=
  ⟨fun _ => rfl, fun _ => rfl, rfl⟩

theorem catSame_trans (a b c : Catalog) (h1 : CatSame a b) (h2 : CatSame b c) :
    CatSame a c :=
  ⟨fun id => (h1.1 id).trans (h2.1 id), fun id => (h1.2.1 id).trans (h2.2.1 id),
    h1.2.2.trans h2.2.2⟩

theorem undoAnn_lookup (c : Catalog) (u : Identity × Option HostEntry) (x : Identity) :
    lookupEntry (undoAnn c u).allEntries x =
      if u.1 = x then u.2 else lookupEntry c.allEntries x := by
  rw [undoAnn_allEntries, lookupEntry_setEntry]

theorem undoAnn_lw (c : Catalog) (u : Identity × Option HostEntry) (x : Identity)
    (hs : c.tree.shape = true) :
    (undoAnn c u).tree.leafWeight x =
      if u.1 = x then entryWeight u.2 else c.tree.leafWeight x := by
  rw [undoAnn_tree, setTreeWeight_leafWeight _ _ _ _ hs]

theorem shape_undoAnn (c : Catalog) (u : Identity × Option HostEntry)
    (hs : c.tree.shape = true) : (undoAnn c u).tree.shape = true := by
  rw [undoAnn_tree]
  exact shape_setTreeWeight _ _ _ hs

theorem catSame_undoAnn (c1 c2 : Catalog) (u : Identity × Option HostEntry)
    (h : CatSame c1 c2) (hs1 : c1.tree.shape = true) (hs2 : c2.tree.shape = true) :
    CatSame (undoAnn c1 u) (undoAnn c2 u) := by
  refine ⟨?_, ?_, ?_⟩
  · intro x
    rw [undoAnn_lookup, undoAnn_lookup]
    by_cases hx : u.1 = x
    · simp [hx]
    · simp [hx, h.1 x]
  · intro x
    rw [undoAnn_lw c1 u x hs1, undoAnn_lw c2 u x hs2]
    by_cases hx : u.1 = x
    · simp [hx]
    · simp [hx, h.2.1 x]
  · rw [undoAnn_journal, undoAnn_journal]
    exact h.2.2

theorem catSame_undoFold (us : List (Identity × Option HostEntry)) (c1 c2 : Catalog)
    (h : CatSame c1 c2) (hs1 : c1.tree.shape = true) (hs2 : c2.tree.shape = true) :
    CatSame (us.foldl undoAnn c1) (us.foldl undoAnn c2) := by
  induction us generalizing c1 c2 with
  | nil => exact h
  | cons u rest ih =>
    simp only [List.foldl_cons]
    exact ih (undoAnn c1 u) (undoAnn c2 u) (catSame_undoAnn c1 c2 u h hs1 hs2)
      (shape_undoAnn c1 u hs1) (shape_undoAnn c2 u hs2)

theorem undoAnn_applyAnn (c : Catalog) (h : Nat) (a : Announcement) (hc : CatInv c) :
    CatSame (undoAnn (applyAnn c h a).1 (applyAnn c h a).2) c := by
  have hs1 : (applyAnn c h a).1.tree.shape = true := (catInv_applyAnn c h a hc).shp
  refine ⟨?_, ?_, ?_⟩
  · intro x
    rw [undoAnn_lookup, applyAnn_snd_fst, applyAnn_snd_snd, applyAnn_fst_allEntries,
        lookupEntry_setEntry]
    by_cases hx : a.identity = x
    · rw [if_pos hx, hx]
    · rw [if_neg hx, if_neg hx]
  · intro x
    rw [undoAnn_lw _ _ _ hs1, applyAnn_snd_fst, applyAnn_snd_snd, applyAnn_fst_tree,
        setTreeWeight_leafWeight _ _ _ _ hc.shp]
    by_cases hx : a.identity = x
    · rw [if_pos hx, hc.coh x, hx]
    · rw [if_neg hx, if_neg hx]
  · rw [undoAnn_journal, applyAnn_fst_journal]

theorem undo_applyAnns (h : Nat) (as : List Announcement) (c : Catalog) (hc : CatInv c) :
    CatSame ((applyAnns c h as).2.foldl undoAnn (applyAnns c h as).1) c := by
  induction as generalizing c with
  | nil => exact catSame_refl c
  | cons a rest ih =>
    rw [applyAnns_cons_fst, applyAnns_cons_snd, List.foldl_append]
    simp only [List.foldl_cons, List.foldl_nil]
    have hinv1 := catInv_applyAnn c h a hc
    obtain ⟨hq1, hq2⟩ := catInv_applyAnns (applyAnn c h a).1 h rest hinv1
    have hXinv := catInv_undoFold (applyAnns (applyAnn c h a).1 h rest).2
      (applyAnns (applyAnn c h a).1 h rest).1 hq1 hq2
    have step := catSame_undoAnn _ _ (applyAnn c h a).2 (ih (applyAnn c h a).1 hinv1)
      hXinv.shp hinv1.shp
    exact catSame_trans _ _ _ step (undoAnn_applyAnn c h a hc)

theorem catSame_setCursor (c1 c2 : Catalog) (k1 k2 : BlockID) (h : CatSame c1 c2) :
    CatSame { c1 with cursor := k1 } { c2 with cursor := k2 } :=
  ⟨h.1, h.2.1, h.2.2⟩

theorem catSame_setCursor_left (c1 c2 : Catalog) (k : BlockID) (h : CatSame c1 c2) :
    CatSame { c1 with cursor := k } c2 :=
  ⟨h.1, h.2.1, h.2.2⟩

theorem revertBlock_eq (c : Catalog) (b : SBlock) (us : List (Identity × Option HostEntry))
    (rest : List (BlockID × List (Identity × Option HostEntry)))
    (hj : c.journal = (b.id, us) :: rest) :
    revertBlock c b =
      { us.foldl undoAnn { c with journal := rest } with cursor := b.parent } := by
  simp only [revertBlock, hj]
  exact if_pos trivial

theorem applyBlock_journal_eq (c : Catalog) (b : SBlock) :
    (applyBlock c b).journal = (b.id, (applyAnns c b.height b.anns).2) :: c.journal := by
  rw [applyBlock_journal, applyAnns_fst_journal]

theorem revertBlock_applyBlock (c : Catalog) (b : SBlock) (hc : CatInv c) :
    CatSame (revertBlock (applyBlock c b) b) c ∧
      (revertBlock (applyBlock c b) b).cursor = b.parent := by
  rw [revertBlock_eq (applyBlock c b) b (applyAnns c b.height b.anns).2 c.journal
      (applyBlock_journal_eq c b)]
  obtain ⟨hq1, hq2⟩ := catInv_applyAnns c b.height b.anns hc
  constructor
  · apply catSame_setCursor_left
    have h0 : CatSame { applyBlock c b with journal := c.journal }
        (applyAnns c b.height b.anns).1 :=
      ⟨fun _ => rfl, fun _ => rfl, (applyAnns_fst_journal c b.height b.anns).symm⟩
    have hstep := catSame_undoFold (applyAnns c b.height b.anns).2 _ _ h0 hq1.shp hq1.shp
    exact catSame_trans _ _ _ hstep (undo_applyAnns b.height b.anns c hc)
  · rfl

theorem catSame_revertBlock (X Y : Catalog) (b : SBlock)
    (h : CatSame X Y) (hsX : X.tree.shape = true) (hsY : Y.tree.shape = true)
    (us : List (Identity × Option HostEntry))
    (rest : List (BlockID × List (Identity × Option HostEntry)))
    (hj : Y.journal = (b.id, us) :: rest) :
    CatSame (revertBlock X b) (revertBlock Y b) ∧ (revertBlock X b).cursor = b.parent := by
  have hjX : X.journal = (b.id, us) :: rest := h.2.2.trans hj
  rw [revertBlock_eq X b us rest hjX, revertBlock_eq Y b us rest hj]
  refine ⟨?_, rfl⟩
  apply catSame_setCursor
  exact catSame_undoFold us _ _ ⟨h.1, h.2.1, rfl⟩ hsX hsY

theorem revertBatch_cons (X : Catalog) (b : SBlock) (rest : List SBlock) :
    revertBatch X (b :: rest) = revertBlock (revertBatch X rest) b := by
  simp [revertBatch, List.reverse_cons, List.foldl_append]

theorem revertBatch_applyBlocks (bs : List SBlock) (c : Catalog) (hc : CatInv c) :
    CatSame (revertBatch (bs.foldl applyBlock c) bs) c ∧
      (revertBatch (bs.foldl applyBlock c) bs).cursor =
        (match bs with
         | [] => c.cursor
         | b :: _ => b.parent) := by
  induction bs generalizing c with
  | nil => exact ⟨catSame_refl c, rfl⟩
  | cons b rest ih =>
    rw [List.foldl_cons, revertBatch_cons]
    obtain ⟨ih1, _⟩ := ih (applyBlock c b) (catInv_applyBlock c b hc)
    have hsX : (revertBatch (rest.foldl applyBlock (applyBlock c b)) rest).tree.shape = true := by
      have hX : CatInv (revertBatch (rest.foldl applyBlock (applyBlock c b)) rest) := by
        unfold revertBatch
        exact catInv_revertBlocks _ _ (catInv_applyBlocks _ _ (catInv_applyBlock c b hc))
      exact hX.shp
    have hsY : (applyBlock c b).tree.shape = true := (catInv_applyBlock c b hc).shp
    obtain ⟨hcong, hcur⟩ := catSame_revertBlock _ _ b ih1 hsX hsY
      (applyAnns c b.height b.anns).2 c.journal (applyBlock_journal_eq c b)
    obtain ⟨hrb, _⟩ := revertBlock_applyBlock c b hc
    exact ⟨catSame_trans _ _ _ hcong hrb, hcur⟩

/-- C5: applying a batch of blocks to a reachable Catalog and then reverting
that same batch restores the Catalog's pre-batch observable state: the same
entry store (hence the same active set), the same per-entry weights, and
the same cursor. -/
theorem apply_revert_restores_catalog (g : BlockID) (c : Catalog) (bs : List SBlock)
    (c' : Catalog) (hreach : Catalog.reachableFrom g c)
    (happ : applyBatch c bs = .ok c') : CatalogRestored (revertBatch c' bs) c := by
  have hc := catInv_reachable g c hreach
  cases bs with
  | nil =>
    simp only [applyBatch, Except.ok.injEq] at happ
    subst happ
    exact ⟨fun _ => rfl, fun _ => Iff.rfl, fun _ => rfl, rfl⟩
  | cons b rest =>
    simp only [applyBatch] at happ
    by_cases hp : b.parent = c.cursor
    · rw [if_pos hp] at happ
      simp only [Except.ok.injEq] at happ
      subst happ
      obtain ⟨hsame, hcur⟩ := revertBatch_applyBlocks (b :: rest) c hc
      refine ⟨hsame.1, ?_, hsame.2.1, ?_⟩
      · intro id
        rw [hsame.1 id]
      · rw [hcur]
        exact hp
    · rw [if_neg hp] at happ
      simp at happ

/-- Witness for C5: one block announcing one host applied to a fresh
Catalog, then reverted. -/
theorem apply_revert_restores_catalog_witness :
    Catalog.reachableFrom 0 (Catalog.init 0) ∧
      applyBatch (Catalog.init 0) [SBlock.mk 1 0 1 [Announcement.mk 5 42 10]] =
        .ok ([SBlock.mk 1 0 1 [Announcement.mk 5 42 10]].foldl applyBlock (Catalog.init 0)) ∧
      CatalogRestored
        (revertBatch ([SBlock.mk 1 0 1 [Announcement.mk 5 42 10]].foldl applyBlock
            (Catalog.init 0))
          [SBlock.mk 1 0 1 [Announcement.mk 5 42 10]])
        (Catalog.init 0) :=
  ⟨⟨[], rfl⟩, rfl,
    apply_revert_restores_catalog 0 (Catalog.init 0)
      [SBlock.mk 1 0 1 [Announcement.mk 5 42 10]] _ ⟨[], rfl⟩ rfl⟩
